import Mathlib

/-!
Verification of the staking pallet ledger, payout, slashing and election
submission logic (frame/staking/src/lib.rs), shallowly embedded in Lean.
Balances are modelled as Nat (the source's saturating subtraction is Nat
subtraction); account ids are Nat; storage maps are functions to Option.
-/

namespace Staking

/-- Pointwise map update used to model storage writes. -/
def setm {α : Type} (f : Nat → α) (k : Nat) (v : α) : Nat → α :=
  fun x => if x = k then v else f x

def MAX_UNLOCKING_CHUNKS : Nat := 32

def MAX_NOMINATIONS : Nat := 16

/-- Just a Balance/EraIndex pair to encode when a chunk of funds will be unlocked. -/
structure UnlockChunk where
  value : Nat
  era : Nat
deriving DecidableEq, Repr

/-- The ledger of a (bonded) stash. -/
structure StakingLedger where
  stash : Nat
  total : Nat
  active : Nat
  unlocking : List UnlockChunk
  last_reward : Option Nat
deriving DecidableEq, Repr

/-- Sum of the values of a list of unlocking chunks. -/
def chunkSum (cs : List UnlockChunk) : Nat := (cs.map UnlockChunk.value).sum

/-- Remove entries from `unlocking` that are sufficiently old and reduce the
total by the sum of their balances (StakingLedger::consolidate_unlocked). -/
def StakingLedger.consolidate_unlocked (l : StakingLedger) (current_era : Nat) : StakingLedger :=
  { stash := l.stash
    total := l.unlocking.foldl
      (fun t chunk => if current_era < chunk.era then t else t - chunk.value) l.total
    active := l.active
    unlocking := l.unlocking.filter (fun chunk => decide (current_era < chunk.era))
    last_reward := l.last_reward }

/-- The loop of StakingLedger::rebond, acting on the reversed unlocking list
(the source pops from the tail with last_mut; here the head of `rev` is the
newest chunk).  Returns the new active amount and the new reversed list. -/
def rebondRev (value : Nat) : Nat → Nat → List UnlockChunk → Nat × List UnlockChunk
  | _, active, [] => (active, [])
  | ub, active, c :: rest =>
    if ub + c.value ≤ value then
      if value ≤ ub + c.value then (active + c.value, rest)
      else rebondRev value (ub + c.value) (active + c.value) rest
    else
      (active + (value - ub), { c with value := c.value - (value - ub) } :: rest)

/-- Re-bond funds that were scheduled for unlocking (StakingLedger::rebond). -/
def StakingLedger.rebond (l : StakingLedger) (value : Nat) : StakingLedger :=
  let r := rebondRev value 0 l.active l.unlocking.reverse
  { l with active := r.1, unlocking := r.2.reverse }

/-- The slash_out_of closure of StakingLedger::slash.  Input and output are
(total, target, value): deduct up to `value` from `target`, zeroing the target
when the deduction would leave at most `minimum_balance` in it, and reduce the
running total by the amount actually deducted. -/
def slash_out_of (minimum_balance : Nat) (total target value : Nat) : Nat × Nat × Nat :=
  let slash_from_target := min value target
  if slash_from_target = 0 then (total, target, value)
  else
    let target1 := target - slash_from_target
    if target1 ≤ minimum_balance then
      (total - target, 0, value - slash_from_target)
    else
      (total - slash_from_target, target1, value - slash_from_target)

/-- The chunk phase of StakingLedger::slash: the lazy map / take_while / drain
pipeline slashes chunks front to back, dropping every chunk that is left with
value zero, and stops at the first chunk that survives with a nonzero value
(later chunks are untouched).  Returns the new total and the new chunk list. -/
def slashChunks (minimum_balance : Nat) : Nat → Nat → List UnlockChunk → Nat × List UnlockChunk
  | total, _, [] => (total, [])
  | total, value, c :: rest =>
    let r := slash_out_of minimum_balance total c.value value
    if r.2.1 = 0 then slashChunks minimum_balance r.1 r.2.2 rest
    else (r.1, { c with value := r.2.1 } :: rest)

/-- Slash the ledger for a given amount of balance (StakingLedger::slash).
Returns the new ledger and the amount of funds actually slashed. -/
def StakingLedger.slash (l : StakingLedger) (value minimum_balance : Nat) :
    StakingLedger × Nat :=
  let pre_total := l.total
  let a := slash_out_of minimum_balance l.total l.active value
  let c := slashChunks minimum_balance a.1 a.2.2 l.unlocking
  ({ l with total := c.1, active := a.2.1, unlocking := c.2 }, pre_total - c.1)

/-- Specification-side description of one slash step on a single field:
deduct min (value, target), absorbing the residue (zeroing the field) when the
deduction would leave at most minimum_balance behind. -/
def slashSpecTarget (minimum_balance target value : Nat) : Nat :=
  if min value target = 0 then target
  else if target - min value target ≤ minimum_balance then 0
  else target - min value target

/-- Specification-side description of the chunk phase: chunks are consumed in
front-to-back order by the remaining slash counter; fully drained chunks are
removed, and the first surviving chunk ends the traversal. -/
def slashSpecChunks (minimum_balance : Nat) : Nat → List UnlockChunk → List UnlockChunk
  | _, [] => []
  | value, c :: rest =>
    let cv := slashSpecTarget minimum_balance c.value value
    if cv = 0 then slashSpecChunks minimum_balance (value - min value c.value) rest
    else { c with value := cv } :: rest

/-! Fixed point and preference types.  Perbill lives in sp-runtime, outside
this crate's source file; it is modelled from the spec. -/

/-- Modelled from the spec: fixed-point arithmetic uses a billion-denominator
rational for on-chain accuracy (sp-runtime's Perbill, not part of the
embedded source file).  `parts` counts billionths; operations round down and
saturate instead of wrapping. -/
structure Perbill where
  parts : Nat
deriving DecidableEq, Repr

namespace Perbill

def scale : Nat := 1000000000

def zero : Perbill := ⟨0⟩

def one : Perbill := ⟨scale⟩

/-- Modelled from the spec: from_rational_approximation clamps the numerator
to the denominator and rounds down. -/
def fromRational (p q : Nat) : Perbill :=
  ⟨min p (max q 1) * scale / max q 1⟩

def satAdd (a b : Perbill) : Perbill := ⟨min scale (a.parts + b.parts)⟩

def satSub (a b : Perbill) : Perbill := ⟨a.parts - b.parts⟩

def satMul (a b : Perbill) : Perbill := ⟨a.parts * b.parts / scale⟩

/-- Modelled from the spec: multiplying a balance by a Perbill takes the
rounded-down fraction. -/
def mulBalance (a : Perbill) (b : Nat) : Nat := a.parts * b / scale

end Perbill

/-- Preference of what happens regarding validation. -/
structure ValidatorPrefs where
  commission : Perbill
deriving DecidableEq, Repr

def defaultValidatorPrefs : ValidatorPrefs := ⟨Perbill.zero⟩

/-- A record of the nominations made by a specific account. -/
structure Nominations where
  targets : List Nat
  submitted_in : Nat
  suppressed : Bool
deriving DecidableEq, Repr

/-- The amount of exposure (to slashing) that an individual nominator has. -/
structure IndividualExposure where
  who : Nat
  value : Nat
deriving DecidableEq, Repr

/-- A snapshot of the stake backing a single validator in the system. -/
structure Exposure where
  total : Nat
  own : Nat
  others : List IndividualExposure
deriving DecidableEq, Repr

def defaultExposure : Exposure := ⟨0, 0, []⟩

/-- Reward points of an era.  The source stores `individual` as a BTreeMap
whose get defaults to zero; it is modelled as a total function. -/
structure EraRewardPointsM where
  total : Nat
  individual : Nat → Nat

/-- A destination account for reward payment. -/
inductive RewardDestination where
  | Staked
  | Stash
  | Controller
deriving DecidableEq, Repr

/-- Dispatch and internal error discriminants of the module. -/
inductive Err where
  | NotController
  | NotStash
  | AlreadyBonded
  | AlreadyPaired
  | InsufficientValue
  | NoMoreChunks
  | NoUnlockChunk
  | InvalidEraToReward
  | InvalidNumberOfNominations
  | DuplicateIndex
  | InvalidSlashIndex
  | FundedTarget
  | BadOrigin
  | PhragmenEarlySubmission
  | PhragmenWeakSubmission
  | SnapshotUnavailable
  | PhragmenBogusWinnerCount
  | PhragmenBogusWinner
  | PhragmenBogusCompact
  | PhragmenBogusNominator
  | PhragmenBogusNomination
  | PhragmenBogusSelfVote
  | PhragmenBogusEdge
  | PhragmenBogusScore
deriving DecidableEq, Repr

/-- A phragmen score triple (min support, support sum, sum of squares). -/
abbrev Score := Nat × Nat × Nat

inductive ElectionCompute where
  | OnChain
  | Signed
  | Authority
deriving DecidableEq, Repr

/-- A support: the total backing of a winner and the voters composing it. -/
structure Support where
  total : Nat
  voters : List (Nat × Nat)
deriving DecidableEq, Repr

/-- A decompressed voter assignment: ratios are OffchainAccuracy (PerU16)
parts, so a full self-vote carries ratio `offchainOne`. -/
structure Assignment where
  who : Nat
  distribution : List (Nat × Nat)
deriving DecidableEq, Repr

/-- Modelled from the spec: the 16-bit-denominator accuracy used for compact
submissions (PerU16, from sp-arithmetic); its `one` is 65535 parts. -/
def offchainOne : Nat := 65535

/-- A staked assignment, after ratios are converted to balances. -/
structure StakedAssignment where
  who : Nat
  distribution : List (Nat × Nat)
deriving DecidableEq, Repr

/-- A pending slash record, deferred for several eras. -/
structure UnappliedSlashM where
  validator : Nat
  own : Nat
  others : List (Nat × Nat)
  reporters : List Nat
  payout : Nat
deriving DecidableEq, Repr

/-- The queued outcome of an election round. -/
structure ElectionResultM where
  elected_stashes : List Nat
  compute : ElectionCompute
  exposures : List (Nat × Exposure)
deriving DecidableEq, Repr

/-- The storage of the staking module that the embedded operations touch.
Maps are functions from account id / era index; Option models presence. -/
structure State where
  bonded : Nat → Option Nat
  ledgerOf : Nat → Option StakingLedger
  payee : Nat → Option RewardDestination
  validators : Nat → Option ValidatorPrefs
  nominators : Nat → Option Nominations
  slashingSpans : Nat → Option Nat
  locks : Nat → Option Nat
  refCount : Nat → Nat
  freeBalance : Nat → Nat
  currentEra : Option Nat
  electionOpen : Bool
  snapshotValidators : Option (List Nat)
  snapshotNominators : Option (List Nat)
  queuedElected : Option ElectionResultM
  queuedScore : Option Score
  unappliedSlashes : Nat → List UnappliedSlashM
  erasValidatorReward : Nat → Option Nat
  erasValidatorPrefs : Nat → Nat → ValidatorPrefs
  erasStakers : Nat → Nat → Exposure
  erasStakersClipped : Nat → Nat → Exposure
  erasRewardPoints : Nat → EraRewardPointsM
  events : List (Nat × Nat)

/-- The runtime constants the embedded operations read. -/
structure Config where
  minimumBalance : Nat
  bondingDuration : Nat
  validatorCount : Nat

/-- Update the ledger for a controller; also rewrites the stash lock to the
new total (update_ledger). -/
def update_ledger (st : State) (controller : Nat) (l : StakingLedger) : State :=
  { st with
    locks := setm st.locks l.stash (some l.total)
    ledgerOf := setm st.ledgerOf controller (some l) }

/-- Take the origin account as a stash and lock up value of its balance
(dispatch bond). -/
def bond (cfg : Config) (st : State) (stash controller value : Nat)
    (payee : RewardDestination) : Except Err State :=
  if (st.bonded stash).isSome then .error .AlreadyBonded
  else if (st.ledgerOf controller).isSome then .error .AlreadyPaired
  else if value < cfg.minimumBalance then .error .InsufficientValue
  else
    let st1 := { st with
      bonded := setm st.bonded stash (some controller)
      payee := setm st.payee stash (some payee)
      refCount := setm st.refCount stash (st.refCount stash + 1) }
    let stash_balance := st.freeBalance stash
    let value1 := min value stash_balance
    let item : StakingLedger :=
      { stash := stash, total := value1, active := value1, unlocking := []
        last_reward := st.currentEra }
    .ok (update_ledger st1 controller item)

/-- Add extra funds from the stash free balance into the bond
(dispatch bond_extra). -/
def bond_extra (st : State) (stash max_additional : Nat) : Except Err State :=
  match st.bonded stash with
  | none => .error .NotStash
  | some controller =>
    match st.ledgerOf controller with
    | none => .error .NotController
    | some ledger =>
      let stash_balance := st.freeBalance stash
      if ledger.total ≤ stash_balance then
        let extra := min (stash_balance - ledger.total) max_additional
        .ok (update_ledger st controller
          { ledger with total := ledger.total + extra, active := ledger.active + extra })
      else .ok st

/-- Schedule a portion of the stash to be unlocked (dispatch unbond). -/
def unbond (cfg : Config) (st : State) (controller value : Nat) : Except Err State :=
  match st.ledgerOf controller with
  | none => .error .NotController
  | some ledger =>
    if ledger.unlocking.length < MAX_UNLOCKING_CHUNKS then
      let value1 := min value ledger.active
      if value1 = 0 then .ok st
      else
        let active1 := ledger.active - value1
        let era := st.currentEra.getD 0 + cfg.bondingDuration
        if active1 < cfg.minimumBalance then
          .ok (update_ledger st controller
            { ledger with active := 0
                          unlocking := ledger.unlocking ++ [⟨value1 + active1, era⟩] })
        else
          .ok (update_ledger st controller
            { ledger with active := active1
                          unlocking := ledger.unlocking ++ [⟨value1, era⟩] })
    else .error .NoMoreChunks

/-- Remove all associated data of a stash account from the staking system
(kill_stash).  The slashing span / span-slash cleanup lives in slashing.rs,
outside the embedded file; per the spec it removes the stash's slashing
metadata, modelled by clearing `slashingSpans`. -/
def kill_stash (st : State) (stash : Nat) : Except Err State :=
  match st.bonded stash with
  | none => .error .NotStash
  | some controller =>
    .ok { st with
      bonded := setm st.bonded stash none
      ledgerOf := setm st.ledgerOf controller none
      payee := setm st.payee stash none
      validators := setm st.validators stash none
      nominators := setm st.nominators stash none
      slashingSpans := setm st.slashingSpans stash none
      refCount := setm st.refCount stash (st.refCount stash - 1) }

/-- Remove any unlocked chunks from the unlocking queue
(dispatch withdraw_unbonded). -/
def withdraw_unbonded (st : State) (controller : Nat) : Except Err State :=
  match st.ledgerOf controller with
  | none => .error .NotController
  | some ledger0 =>
    let ledger := match st.currentEra with
      | some current_era => ledger0.consolidate_unlocked current_era
      | none => ledger0
    if ledger.unlocking.isEmpty && ledger.active == 0 then
      match kill_stash st ledger.stash with
      | .error e => .error e
      | .ok st1 => .ok { st1 with locks := setm st1.locks ledger.stash none }
    else
      .ok (update_ledger st controller ledger)

/-- Rebond a portion of the stash scheduled to be unlocked (dispatch rebond). -/
def rebond (st : State) (controller value : Nat) : Except Err State :=
  match st.ledgerOf controller with
  | none => .error .NotController
  | some ledger =>
    if ledger.unlocking.length > 0 then
      .ok (update_ledger st controller (ledger.rebond value))
    else .error .NoUnlockChunk

/-- Whether the staker has already been paid for `era`
(the `last_reward >= era` test of the payout paths). -/
def claimedAlready (last_reward : Option Nat) (era : Nat) : Bool :=
  (last_reward.map (fun lr => decide (era ≤ lr))).getD false

/-- Actually make a payment to a staker following the payee preference
(make_payout).  The external currency deposit is modelled as always
succeeding; returns the new state and the deposited amount, if any. -/
def make_payout (st : State) (stash amount : Nat) : State × Option Nat :=
  match (st.payee stash).getD .Staked with
  | .Controller =>
    match st.bonded stash with
    | some controller =>
      ({ st with freeBalance := setm st.freeBalance controller
                   (st.freeBalance controller + amount) }, some amount)
    | none => (st, none)
  | .Stash =>
    ({ st with freeBalance := setm st.freeBalance stash
                 (st.freeBalance stash + amount) }, some amount)
  | .Staked =>
    match st.bonded stash with
    | none => (st, none)
    | some controller =>
      match st.ledgerOf controller with
      | none => (st, none)
      | some l =>
        let l1 := { l with active := l.active + amount, total := l.total + amount }
        let st1 := { st with freeBalance := setm st.freeBalance stash
                               (st.freeBalance stash + amount) }
        (update_ledger st1 controller l1, some amount)

/-- Make one validator's payout for one era (do_payout_validator). -/
def do_payout_validator (st : State) (who era : Nat) : Except Err State :=
  match st.erasValidatorReward era with
  | none => .error .InvalidEraToReward
  | some era_payout =>
    match st.ledgerOf who with
    | none => .error .NotController
    | some ledger0 =>
      if claimedAlready ledger0.last_reward era then .error .InvalidEraToReward
      else
        let ledger := { ledger0 with last_reward := some era }
        let st1 := { st with ledgerOf := setm st.ledgerOf who (some ledger) }
        let era_reward_points := st1.erasRewardPoints era
        let commission := (st1.erasValidatorPrefs era ledger.stash).commission
        let exposure := st1.erasStakers era ledger.stash
        let exposure_part := Perbill.fromRational exposure.own exposure.total
        let validator_point := era_reward_points.individual ledger.stash
        let validator_point_part :=
          Perbill.fromRational validator_point era_reward_points.total
        let reward := validator_point_part.satMul
          (commission.satAdd ((Perbill.one.satSub commission).satMul exposure_part))
        let pay := make_payout st1 ledger.stash (reward.mulBalance era_payout)
        match pay.2 with
        | some amount => .ok { pay.1 with events := (who, amount) :: pay.1.events }
        | none => .ok pay.1

/-- Whether a (validator, nominator_index) entry of payout_nominator resolves
to an exposure slot belonging to the given stash. -/
def validEntry (st : State) (era stash : Nat) (ve : Nat × Nat) : Bool :=
  match (st.erasStakersClipped era ve.1).others.get? ve.2 with
  | none => false
  | some ne => ne.who == stash

/-- One entry of the payout_nominator loop: entries whose clipped-exposure
slot is missing or belongs to another stash leave the accumulator unchanged. -/
def nominatorRewardStep (st : State) (era stash : Nat) (reward : Perbill)
    (ve : Nat × Nat) : Perbill :=
  let commission := (st.erasValidatorPrefs era ve.1).commission
  let validator_exposure := st.erasStakersClipped era ve.1
  match validator_exposure.others.get? ve.2 with
  | none => reward
  | some nominator_exposure =>
    if nominator_exposure.who ≠ stash then reward
    else
      let nominator_exposure_part :=
        Perbill.fromRational nominator_exposure.value validator_exposure.total
      let era_reward_points := st.erasRewardPoints era
      let validator_point := era_reward_points.individual ve.1
      let validator_point_part :=
        Perbill.fromRational validator_point era_reward_points.total
      reward.satAdd ((validator_point_part.satMul
        (Perbill.one.satSub commission)).satMul nominator_exposure_part)

/-- The reward fraction accumulated over the entries of payout_nominator. -/
def nominatorRewardFold (st : State) (era stash : Nat)
    (entries : List (Nat × Nat)) : Perbill :=
  entries.foldl (nominatorRewardStep st era stash) Perbill.zero

/-- Make one nominator's payout for one era (do_payout_nominator). -/
def do_payout_nominator (st : State) (who era : Nat)
    (validators : List (Nat × Nat)) : Except Err State :=
  if validators.length > MAX_NOMINATIONS then .error .InvalidNumberOfNominations
  else
    match st.erasValidatorReward era with
    | none => .error .InvalidEraToReward
    | some era_payout =>
      match st.ledgerOf who with
      | none => .error .NotController
      | some ledger0 =>
        if claimedAlready ledger0.last_reward era then .error .InvalidEraToReward
        else
          let nominator_ledger := { ledger0 with last_reward := some era }
          let st1 := { st with ledgerOf := setm st.ledgerOf who (some nominator_ledger) }
          let reward := nominatorRewardFold st1 era nominator_ledger.stash validators
          let pay := make_payout st1 nominator_ledger.stash (reward.mulBalance era_payout)
          match pay.2 with
          | some amount => .ok { pay.1 with events := (who, amount) :: pay.1.events }
          | none => .ok pay.1

/-- Modelled from the spec: slashing::do_slash (slashing.rs is outside the
embedded file) debits the ledger of the given stash by `value` using the
StakingLedger::slash algorithm and rewrites the ledger and lock; a stash
without a ledger is untouched. -/
def do_slash (cfg : Config) (st : State) (stash value : Nat) : State :=
  match st.bonded stash with
  | none => st
  | some controller =>
    match st.ledgerOf controller with
    | none => st
    | some l =>
      let r := l.slash value cfg.minimumBalance
      update_ledger st controller r.1

/-- Modelled from the spec: sp-phragmen's is_score_better, deciding whether
the claimed (incoming) score strictly improves on the queued one under the
lexicographic ordering with the first component maximised and the latter two
minimised. -/
def is_score_better (queued claimed : Score) : Bool :=
  decide (queued.1 < claimed.1) ||
  (claimed.1 == queued.1 &&
    (decide (claimed.2.1 < queued.2.1) ||
      (claimed.2.1 == queued.2.1 && decide (claimed.2.2 < queued.2.2))))

/-- Resolve submitted winner indices through the validator snapshot. -/
def winnersResolve (snapshot : List Nat) : List Nat → Except Err (List Nat)
  | [] => .ok []
  | w :: ws =>
    match snapshot.get? w with
    | none => .error .PhragmenBogusWinner
    | some a =>
      match winnersResolve snapshot ws with
      | .error e => .error e
      | .ok rest => .ok (a :: rest)

/-- The per-assignment validation loop of check_and_replace_solution: each
voter must be exactly one of validator / nominator, self votes must be single
full-ratio votes for oneself, and nominations must be declared targets not
stale against the target's last nonzero slash. -/
def checkAssignments (st : State) : List Assignment → Option Err
  | [] => none
  | a :: rest =>
    let is_validator := (st.validators a.who).isSome
    match st.nominators a.who with
    | some nomination =>
      if is_validator then some .PhragmenBogusNominator
      else if a.distribution.all (fun td =>
          nomination.targets.contains td.1 &&
          (match st.slashingSpans td.1 with
           | none => true
           | some last_nonzero => decide (last_nonzero ≤ nomination.submitted_in))) then
        checkAssignments st rest
      else some .PhragmenBogusNomination
    | none =>
      if ¬ is_validator then some .PhragmenBogusNominator
      else
        match a.distribution with
        | [td] =>
          if td.1 == a.who && td.2 == offchainOne then checkAssignments st rest
          else some .PhragmenBogusSelfVote
        | _ => some .PhragmenBogusSelfVote

/-- Consume a support map and collect it into per-validator exposures
(collect_exposure; the currency/vote conversions are identities here). -/
def collect_exposure (supports : List (Nat × Support)) : List (Nat × Exposure) :=
  supports.map (fun vs =>
    let folded := vs.2.voters.foldl
      (fun (acc : Nat × Nat × List IndividualExposure) nw =>
        if nw.1 == vs.1 then (acc.1 + nw.2, acc.2.1 + nw.2, acc.2.2)
        else (acc.1, acc.2.1 + nw.2, acc.2.2 ++ [⟨nw.1, nw.2⟩]))
      (0, 0, [])
    (vs.1, { total := folded.2.1, own := folded.1, others := folded.2.2 }))

/-- Checks a given solution and, if correct and improved, writes it on chain
as the queued result (check_and_replace_solution).  The sp-phragmen
primitives — compact decompression, ratio-to-stake conversion, support map
construction and score evaluation — are external pure functions (per the
spec) and are taken as parameters.  Storage writes are performed on the
returned state, so rejection branches can be observed to leave it intact. -/
def check_and_replace_solution (cfg : Config)
    (intoAssignment : (Nat → Option Nat) → (Nat → Option Nat) → Option (List Assignment))
    (ratioToStaked : List Assignment → List StakedAssignment)
    (buildSupportMap : List Nat → List StakedAssignment → List (Nat × Support) × Nat)
    (evaluateSupport : List (Nat × Support) → Score)
    (st : State) (winners : List Nat) (compute : ElectionCompute)
    (claimed_score : Score) : State × Option Err :=
  if ¬ st.electionOpen then (st, some .PhragmenEarlySubmission)
  else if (match st.queuedScore with
           | some queued => ! is_score_better queued claimed_score
           | none => false) then (st, some .PhragmenWeakSubmission)
  else
    match st.snapshotValidators with
    | none => (st, some .SnapshotUnavailable)
    | some snapshot_validators =>
      let desired_winners := min cfg.validatorCount snapshot_validators.length
      if winners.length ≠ desired_winners then (st, some .PhragmenBogusWinnerCount)
      else
        match winnersResolve snapshot_validators winners with
        | .error e => (st, some e)
        | .ok winnerIds =>
          match st.snapshotNominators with
          | none => (st, some .SnapshotUnavailable)
          | some snapshot_nominators =>
            match intoAssignment (fun i => snapshot_nominators.get? i)
                (fun i => snapshot_validators.get? i) with
            | none => (st, some .PhragmenBogusCompact)
            | some assignments =>
              match checkAssignments st assignments with
              | some e => (st, some e)
              | none =>
                let staked := ratioToStaked assignments
                let built := buildSupportMap winnerIds staked
                if built.2 ≠ 0 then (st, some .PhragmenBogusEdge)
                else
                  let submitted_score := evaluateSupport built.1
                  if submitted_score ≠ claimed_score then (st, some .PhragmenBogusScore)
                  else
                    ({ st with
                        queuedElected := some
                          { elected_stashes := winnerIds, compute := compute
                            exposures := collect_exposure built.1 }
                        queuedScore := some submitted_score }, none)

/-- Insertion of one element into a sorted list (ascending). -/
def insertSorted (x : Nat) : List Nat → List Nat
  | [] => [x]
  | y :: ys => if x ≤ y then x :: y :: ys else y :: insertSorted x ys

/-- Insertion sort, modelling slash_indices.sort_unstable(). -/
def insertionSort : List Nat → List Nat
  | [] => []
  | x :: xs => insertSorted x (insertionSort xs)

/-- The removal loop of cancel_deferred_slash over the sorted index list:
`removed` counts prior removals; each index is shifted by it and must stay
at least `removed` and in range. -/
def cancelLoop {α : Type} : List Nat → Nat → List α → Except Err (List α)
  | [], _, unapplied => .ok unapplied
  | index :: rest, removed, unapplied =>
    if removed ≤ index then
      if index - removed < unapplied.length then
        cancelLoop rest (removed + 1) (unapplied.eraseIdx (index - removed))
      else .error .InvalidSlashIndex
    else .error .DuplicateIndex

/-- Cancel enactment of deferred slashes (dispatch cancel_deferred_slash).
The origin check (root or SlashCancelOrigin) is modelled by a Boolean. -/
def cancel_deferred_slash (st : State) (isPrivileged : Bool) (era : Nat)
    (slash_indices : List Nat) : Except Err State :=
  if ¬ isPrivileged then .error .BadOrigin
  else
    match cancelLoop (insertionSort slash_indices) 0 (st.unappliedSlashes era) with
    | .error e => .error e
    | .ok unapplied =>
      .ok { st with unappliedSlashes := setm st.unappliedSlashes era unapplied }

/-- Keep the elements of a list whose position (counted from `n`) does not
satisfy the removal predicate. -/
def filterIdxFrom {α : Type} (p : Nat → Bool) : Nat → List α → List α
  | _, [] => []
  | n, x :: xs => if p n then filterIdxFrom p (n + 1) xs else x :: filterIdxFrom p (n + 1) xs

/-- The ledger-mutating dispatches of the module (the slash application and
the payouts included), used to state the ledger invariant. -/
inductive Dispatch where
  | bondD (stash controller value : Nat) (payee : RewardDestination)
  | bondExtraD (stash maxAdditional : Nat)
  | unbondD (controller value : Nat)
  | withdrawUnbondedD (controller : Nat)
  | rebondD (controller value : Nat)
  | applySlashD (stash value : Nat)
  | payoutValidatorD (who era : Nat)
  | payoutNominatorD (who era : Nat) (entries : List (Nat × Nat))

/-- Transactional semantics: a failing dispatch reverts all its writes. -/
def commit (st : State) : Except Err State → State
  | .ok st1 => st1
  | .error _ => st

/-- Run one dispatch against the state. -/
def applyDispatch (cfg : Config) (st : State) : Dispatch → State
  | .bondD stash controller value payee => commit st (bond cfg st stash controller value payee)
  | .bondExtraD stash maxAdditional => commit st (bond_extra st stash maxAdditional)
  | .unbondD controller value => commit st (unbond cfg st controller value)
  | .withdrawUnbondedD controller => commit st (withdraw_unbonded st controller)
  | .rebondD controller value => commit st (rebond st controller value)
  | .applySlashD stash value => do_slash cfg st stash value
  | .payoutValidatorD who era => commit st (do_payout_validator st who era)
  | .payoutNominatorD who era entries => commit st (do_payout_nominator st who era entries)

/-- The dispatch sequence of the rebond round-trip law. -/
def unbond_then_rebond (cfg : Config) (st : State) (controller value : Nat) : State :=
  let st1 := commit st (unbond cfg st controller value)
  commit st1 (rebond st1 controller value)

/-- The ledger invariant: total accounts for active plus all unlocking
chunks, and the unlocking queue is bounded. -/
def wfLedger (l : StakingLedger) : Prop :=
  l.total = l.active + chunkSum l.unlocking ∧ l.unlocking.length ≤ MAX_UNLOCKING_CHUNKS

/-- Every stored ledger satisfies the ledger invariant. -/
def wfState (st : State) : Prop :=
  ∀ c l, st.ledgerOf c = some l → wfLedger l

/-- A state with empty storage, used to instantiate witnesses. -/
def emptyState : State where
  bonded := fun _ => none
  ledgerOf := fun _ => none
  payee := fun _ => none
  validators := fun _ => none
  nominators := fun _ => none
  slashingSpans := fun _ => none
  locks := fun _ => none
  refCount := fun _ => 0
  freeBalance := fun _ => 0
  currentEra := none
  electionOpen := false
  snapshotValidators := none
  snapshotNominators := none
  queuedElected := none
  queuedScore := none
  unappliedSlashes := fun _ => []
  erasValidatorReward := fun _ => none
  erasValidatorPrefs := fun _ _ => defaultValidatorPrefs
  erasStakers := fun _ _ => defaultExposure
  erasStakersClipped := fun _ _ => defaultExposure
  erasRewardPoints := fun _ => ⟨0, fun _ => 0⟩
  events := []

/-! Helper lemmas. -/

theorem setm_same {α : Type} (f : Nat → α) (k : Nat) (v : α) : setm f k v k = v := by
  simp [setm]

theorem setm_ne {α : Type} (f : Nat → α) (k : Nat) (v : α) {x : Nat} (h : x ≠ k) :
    setm f k v x = f x := by
  simp [setm, h]

theorem chunkSum_nil : chunkSum [] = 0 := rfl

theorem chunkSum_cons (c : UnlockChunk) (cs : List UnlockChunk) :
    chunkSum (c :: cs) = c.value + chunkSum cs := by
  simp [chunkSum]

theorem chunkSum_append (a b : List UnlockChunk) :
    chunkSum (a ++ b) = chunkSum a + chunkSum b := by
  simp [chunkSum]

theorem chunkSum_reverse (a : List UnlockChunk) : chunkSum a.reverse = chunkSum a := by
  simp [chunkSum, List.sum_reverse]

theorem slash_out_of_val (mb t g v : Nat) :
    (slash_out_of mb t g v).2.2 = v - min v g := by
  unfold slash_out_of
  by_cases h : min v g = 0
  · simp [h]
  · simp only [h, if_false]
    split <;> rfl

theorem slash_out_of_target (mb t g v : Nat) :
    (slash_out_of mb t g v).2.1 = slashSpecTarget mb g v := by
  unfold slash_out_of slashSpecTarget
  by_cases h : min v g = 0
  · simp [h]
  · simp only [h, if_false]
    split <;> simp

theorem slash_out_of_total_le (mb t g v : Nat) :
    (slash_out_of mb t g v).1 ≤ t := by
  unfold slash_out_of
  by_cases h : min v g = 0
  · simp [h]
  · simp only [h, if_false]
    split <;> simp [Nat.sub_le]

theorem slash_out_of_acc (mb t g v K : Nat) (h : t = g + K) :
    (slash_out_of mb t g v).1 = (slash_out_of mb t g v).2.1 + K := by
  unfold slash_out_of
  have hmin : min v g ≤ g := Nat.min_le_right v g
  by_cases h0 : min v g = 0
  · simp [h0, h]
  · simp only [h0, if_false]
    split
    · simp
      omega
    · simp
      omega

theorem slashChunks_snd (mb : Nat) (cs : List UnlockChunk) : ∀ (t v : Nat),
    (slashChunks mb t v cs).2 = slashSpecChunks mb v cs := by
  induction cs with
  | nil => intro t v; rfl
  | cons c rest ih =>
    intro t v
    simp only [slashChunks, slashSpecChunks]
    rw [slash_out_of_target mb t c.value v, slash_out_of_val mb t c.value v]
    split
    · exact ih _ _
    · rfl

theorem slashChunks_total_acc (mb : Nat) (cs : List UnlockChunk) : ∀ (t v A : Nat),
    t = A + chunkSum cs →
    (slashChunks mb t v cs).1 = A + chunkSum (slashChunks mb t v cs).2 := by
  induction cs with
  | nil =>
    intro t v A h
    simpa [slashChunks, chunkSum_nil] using h
  | cons c rest ih =>
    intro t v A h
    rw [chunkSum_cons] at h
    have hacc := slash_out_of_acc mb t c.value v (A + chunkSum rest) (by omega)
    simp only [slashChunks]
    split
    · rename_i h0
      exact ih _ _ _ (by omega)
    · simp only [chunkSum_cons]
      omega

theorem slashChunks_total_le (mb : Nat) (cs : List UnlockChunk) : ∀ (t v : Nat),
    (slashChunks mb t v cs).1 ≤ t := by
  induction cs with
  | nil => intro t v; exact Nat.le_refl t
  | cons c rest ih =>
    intro t v
    simp only [slashChunks]
    have h1 := slash_out_of_total_le mb t c.value v
    split
    · exact le_trans (ih _ _) h1
    · exact h1

theorem slashChunks_len (mb : Nat) (cs : List UnlockChunk) : ∀ (t v : Nat),
    (slashChunks mb t v cs).2.length ≤ cs.length := by
  induction cs with
  | nil => intro t v; exact Nat.le_refl 0
  | cons c rest ih =>
    intro t v
    simp only [slashChunks]
    split
    · exact le_trans (ih _ _) (Nat.le_succ _)
    · simp

theorem slash_total_le (l : StakingLedger) (v mb : Nat) :
    (l.slash v mb).1.total ≤ l.total := by
  unfold StakingLedger.slash
  exact le_trans (slashChunks_total_le mb l.unlocking _ _) (slash_out_of_total_le mb l.total l.active v)

theorem slash_wf (l : StakingLedger) (v mb : Nat) (h : wfLedger l) :
    wfLedger (l.slash v mb).1 := by
  obtain ⟨hsum, hlen⟩ := h
  constructor
  · show (l.slash v mb).1.total = (l.slash v mb).1.active + chunkSum (l.slash v mb).1.unlocking
    unfold StakingLedger.slash
    have h1 := slash_out_of_acc mb l.total l.active v (chunkSum l.unlocking) hsum
    exact slashChunks_total_acc mb l.unlocking _ _ _ h1
  · show (l.slash v mb).1.unlocking.length ≤ MAX_UNLOCKING_CHUNKS
    unfold StakingLedger.slash
    exact le_trans (slashChunks_len mb l.unlocking _ _) hlen

/-- Claim C2: StakingLedger::slash deducts first from active and then from
the unlocking chunks front to back, absorbing residues that would fall below
the minimum balance into the same step, and returns the decrease in total. -/
theorem slash_spec (l : StakingLedger) (v mb : Nat) :
    (l.slash v mb).2 = l.total - (l.slash v mb).1.total ∧
    (l.slash v mb).1.total ≤ l.total ∧
    (l.slash v mb).1.active = slashSpecTarget mb l.active v ∧
    (l.slash v mb).1.unlocking = slashSpecChunks mb (v - min v l.active) l.unlocking ∧
    (0 < min v l.active → l.active - min v l.active < mb →
      (l.slash v mb).1.active = 0) := by
  have hact : (l.slash v mb).1.active = (slash_out_of mb l.total l.active v).2.1 := rfl
  have hunl : (l.slash v mb).1.unlocking =
      (slashChunks mb (slash_out_of mb l.total l.active v).1
        (slash_out_of mb l.total l.active v).2.2 l.unlocking).2 := rfl
  refine ⟨rfl, slash_total_le l v mb, ?_, ?_, ?_⟩
  · rw [hact, slash_out_of_target]
  · rw [hunl, slashChunks_snd, slash_out_of_val]
  · intro hpos hlt
    rw [hact, slash_out_of_target]
    unfold slashSpecTarget
    have h0 : ¬ min v l.active = 0 := by omega
    simp only [h0, if_false]
    have hle : l.active - min v l.active ≤ mb := Nat.le_of_lt hlt
    simp [hle]

theorem foldl_sub_filter (e : Nat) (cs : List UnlockChunk) : ∀ (t : Nat),
    cs.foldl (fun t chunk => if e < chunk.era then t else t - chunk.value) t
      = t - chunkSum (cs.filter (fun c => ! decide (e < c.era))) := by
  induction cs with
  | nil => intro t; simp [chunkSum_nil]
  | cons c rest ih =>
    intro t
    by_cases hp : e < c.era
    · simp [List.foldl_cons, List.filter_cons, hp, ih]
    · simp only [List.foldl_cons, List.filter_cons]
      rw [if_neg hp, ih]
      simp [hp, chunkSum_cons, Nat.sub_sub]

theorem chunkSum_filter_split (p : UnlockChunk → Bool) (cs : List UnlockChunk) :
    chunkSum (cs.filter p) + chunkSum (cs.filter (fun c => ! p c)) = chunkSum cs := by
  induction cs with
  | nil => rfl
  | cons c rest ih =>
    by_cases hp : p c = true <;>
      simp [List.filter_cons, hp, chunkSum_cons] <;> omega

theorem consolidate_unlocking (l : StakingLedger) (e : Nat) :
    (l.consolidate_unlocked e).unlocking
      = l.unlocking.filter (fun c => decide (e < c.era)) := rfl

theorem consolidate_total (l : StakingLedger) (e : Nat) :
    (l.consolidate_unlocked e).total
      = l.total - chunkSum (l.unlocking.filter (fun c => ! decide (e < c.era))) := by
  show l.unlocking.foldl _ l.total = _
  exact foldl_sub_filter e l.unlocking l.total

theorem consolidate_active (l : StakingLedger) (e : Nat) :
    (l.consolidate_unlocked e).active = l.active := rfl

theorem consolidate_wf (l : StakingLedger) (e : Nat) (h : wfLedger l) :
    wfLedger (l.consolidate_unlocked e) := by
  obtain ⟨hsum, hlen⟩ := h
  have hsplit := chunkSum_filter_split (fun c => decide (e < c.era)) l.unlocking
  constructor
  · rw [consolidate_total, consolidate_unlocking, consolidate_active]
    omega
  · rw [consolidate_unlocking]
    exact le_trans (List.length_filter_le _ _) hlen

theorem rebondRev_sum (value : Nat) (rev : List UnlockChunk) : ∀ (ub active : Nat),
    (rebondRev value ub active rev).1 + chunkSum (rebondRev value ub active rev).2
      = active + chunkSum rev := by
  induction rev with
  | nil => intro ub active; simp [rebondRev, chunkSum_nil]
  | cons c rest ih =>
    intro ub active
    simp only [rebondRev]
    split
    · split
      · simp only [chunkSum_cons]; omega
      · rw [ih]; simp only [chunkSum_cons]; omega
    · rename_i hgt
      simp only [chunkSum_cons]
      omega

theorem rebondRev_len (value : Nat) (rev : List UnlockChunk) : ∀ (ub active : Nat),
    (rebondRev value ub active rev).2.length ≤ rev.length := by
  induction rev with
  | nil => intro ub active; exact Nat.le_refl 0
  | cons c rest ih =>
    intro ub active
    simp only [rebondRev]
    split
    · split
      · simp
      · exact le_trans (ih _ _) (Nat.le_succ _)
    · simp

theorem rebond_total (l : StakingLedger) (value : Nat) :
    (l.rebond value).total = l.total := rfl

theorem rebond_wf (l : StakingLedger) (value : Nat) (h : wfLedger l) :
    wfLedger (l.rebond value) := by
  obtain ⟨hsum, hlen⟩ := h
  constructor
  · show (l.rebond value).total = (l.rebond value).active + chunkSum (l.rebond value).unlocking
    have h1 : (l.rebond value).active = (rebondRev value 0 l.active l.unlocking.reverse).1 := rfl
    have h2 : (l.rebond value).unlocking
        = (rebondRev value 0 l.active l.unlocking.reverse).2.reverse := rfl
    rw [rebond_total, h1, h2, chunkSum_reverse]
    have := rebondRev_sum value l.unlocking.reverse 0 l.active
    rw [chunkSum_reverse] at this
    omega
  · show (l.rebond value).unlocking.length ≤ MAX_UNLOCKING_CHUNKS
    have h2 : (l.rebond value).unlocking
        = (rebondRev value 0 l.active l.unlocking.reverse).2.reverse := rfl
    rw [h2, List.length_reverse]
    exact le_trans (rebondRev_len value l.unlocking.reverse 0 l.active)
      (by rw [List.length_reverse]; exact hlen)

/-! Well-formedness preservation of each dispatch. -/

theorem commit_wf {st : State} {r : Except Err State} (hst : wfState st)
    (h : ∀ st', r = .ok st' → wfState st') : wfState (commit st r) := by
  cases r with
  | ok st1 => exact h st1 rfl
  | error e => exact hst

theorem wf_update_ledger {st : State} (c : Nat) {l : StakingLedger}
    (hst : wfState st) (hl : wfLedger l) : wfState (update_ledger st c l) := by
  intro c' l' h
  change setm st.ledgerOf c (some l) c' = some l' at h
  by_cases hc : c' = c
  · subst hc; rw [setm_same] at h; cases h; exact hl
  · rw [setm_ne _ _ _ hc] at h; exact hst c' l' h

theorem wf_ledgerOf_eq {st st' : State} (hst : wfState st)
    (h : st'.ledgerOf = st.ledgerOf) : wfState st' := by
  intro c l hl
  exact hst c l (h ▸ hl)

theorem bond_ok_wf (cfg : Config) (st : State) (stash controller value : Nat)
    (payee : RewardDestination) (hst : wfState st) :
    ∀ st', bond cfg st stash controller value payee = .ok st' → wfState st' := by
  intro st' h
  unfold bond at h
  split at h
  · exact absurd h (by simp)
  · split at h
    · exact absurd h (by simp)
    · split at h
      · exact absurd h (by simp)
      · cases h
        apply wf_update_ledger _ (wf_ledgerOf_eq hst rfl)
        constructor
        · simp [chunkSum_nil]
        · simp [MAX_UNLOCKING_CHUNKS]

theorem bond_extra_ok_wf (st : State) (stash maxAdditional : Nat) (hst : wfState st) :
    ∀ st', bond_extra st stash maxAdditional = .ok st' → wfState st' := by
  intro st' h
  unfold bond_extra at h
  split at h
  · exact absurd h (by simp)
  · rename_i controller _
    split at h
    · exact absurd h (by simp)
    · rename_i ledger hledger
      dsimp only at h
      split at h
      · cases h
        apply wf_update_ledger _ hst
        obtain ⟨hsum, hlen⟩ := hst controller ledger hledger
        exact ⟨by simp; omega, hlen⟩
      · cases h; exact hst

theorem unbond_ok_wf (cfg : Config) (st : State) (controller value : Nat)
    (hst : wfState st) :
    ∀ st', unbond cfg st controller value = .ok st' → wfState st' := by
  intro st' h
  unfold unbond at h
  split at h
  · exact absurd h (by simp)
  · rename_i ledger hledger
    split at h
    · rename_i hlen32
      dsimp only at h
      split at h
      · cases h; exact hst
      · rename_i hv0
        obtain ⟨hsum, hlen⟩ := hst controller ledger hledger
        have hminle : min value ledger.active ≤ ledger.active := Nat.min_le_right _ _
        split at h
        · cases h
          apply wf_update_ledger _ hst
          constructor
          · simp [chunkSum_append, chunkSum_cons, chunkSum_nil]
            omega
          · simp
            omega
        · cases h
          apply wf_update_ledger _ hst
          constructor
          · simp [chunkSum_append, chunkSum_cons, chunkSum_nil]
            omega
          · simp
            omega
    · exact absurd h (by simp)

theorem kill_stash_ok_wf (st : State) (stash : Nat) (hst : wfState st) :
    ∀ st', kill_stash st stash = .ok st' → wfState st' := by
  intro st' h
  unfold kill_stash at h
  split at h
  · exact absurd h (by simp)
  · rename_i controller _
    cases h
    intro c' l' hl'
    change setm st.ledgerOf controller none c' = some l' at hl'
    by_cases hc : c' = controller
    · subst hc; rw [setm_same] at hl'; cases hl'
    · rw [setm_ne _ _ _ hc] at hl'; exact hst c' l' hl'

theorem withdraw_unbonded_ok_wf (st : State) (controller : Nat) (hst : wfState st) :
    ∀ st', withdraw_unbonded st controller = .ok st' → wfState st' := by
  intro st' h
  unfold withdraw_unbonded at h
  split at h
  · exact absurd h (by simp)
  · rename_i ledger0 hledger0
    have hwf0 : wfLedger ledger0 := hst controller ledger0 hledger0
    split at h
    · rename_i current_era hce
      dsimp only at h
      split at h
      · split at h
        · exact absurd h (by simp)
        · rename_i st1 hkill
          cases h
          exact wf_ledgerOf_eq (kill_stash_ok_wf st _ hst st1 hkill) rfl
      · cases h
        exact wf_update_ledger _ hst (consolidate_wf _ _ hwf0)
    · dsimp only at h
      split at h
      · split at h
        · exact absurd h (by simp)
        · rename_i st1 hkill
          cases h
          exact wf_ledgerOf_eq (kill_stash_ok_wf st _ hst st1 hkill) rfl
      · cases h
        exact wf_update_ledger _ hst hwf0

theorem rebond_ok_wf (st : State) (controller value : Nat) (hst : wfState st) :
    ∀ st', rebond st controller value = .ok st' → wfState st' := by
  intro st' h
  unfold rebond at h
  split at h
  · exact absurd h (by simp)
  · rename_i ledger hledger
    split at h
    · cases h
      exact wf_update_ledger _ hst (rebond_wf ledger value (hst controller ledger hledger))
    · exact absurd h (by simp)

theorem do_slash_wf (cfg : Config) (st : State) (stash value : Nat) (hst : wfState st) :
    wfState (do_slash cfg st stash value) := by
  unfold do_slash
  split
  · exact hst
  · rename_i controller _
    split
    · exact hst
    · rename_i l hl
      exact wf_update_ledger _ hst (slash_wf l value cfg.minimumBalance (hst controller l hl))

theorem make_payout_wf (st : State) (stash amount : Nat) (hst : wfState st) :
    wfState (make_payout st stash amount).1 := by
  unfold make_payout
  split
  · split
    · exact wf_ledgerOf_eq hst rfl
    · exact hst
  · exact wf_ledgerOf_eq hst rfl
  · split
    · exact hst
    · rename_i controller _
      split
      · exact hst
      · rename_i l hl
        apply wf_update_ledger _ (wf_ledgerOf_eq hst rfl)
        obtain ⟨hsum, hlen⟩ := hst controller l hl
        exact ⟨by simp; omega, hlen⟩

theorem do_payout_validator_ok_wf (st : State) (who era : Nat) (hst : wfState st) :
    ∀ st', do_payout_validator st who era = .ok st' → wfState st' := by
  intro st' h
  unfold do_payout_validator at h
  split at h
  · exact absurd h (by simp)
  · rename_i era_payout _
    split at h
    · exact absurd h (by simp)
    · rename_i ledger0 hledger0
      split at h
      · exact absurd h (by simp)
      · obtain ⟨hsum, hlen⟩ := hst who ledger0 hledger0
        have hst1 : wfState { st with
            ledgerOf := setm st.ledgerOf who (some { ledger0 with last_reward := some era }) } := by
          intro c' l' hl'
          change setm st.ledgerOf who _ c' = some l' at hl'
          by_cases hc : c' = who
          · subst hc; rw [setm_same] at hl'; cases hl'; exact ⟨hsum, hlen⟩
          · rw [setm_ne _ _ _ hc] at hl'; exact hst c' l' hl'
        dsimp only at h
        split at h
        · cases h; exact wf_ledgerOf_eq (make_payout_wf _ _ _ hst1) rfl
        · cases h; exact make_payout_wf _ _ _ hst1

theorem do_payout_nominator_ok_wf (st : State) (who era : Nat)
    (entries : List (Nat × Nat)) (hst : wfState st) :
    ∀ st', do_payout_nominator st who era entries = .ok st' → wfState st' := by
  intro st' h
  unfold do_payout_nominator at h
  split at h
  · exact absurd h (by simp)
  · split at h
    · exact absurd h (by simp)
    · rename_i era_payout _
      split at h
      · exact absurd h (by simp)
      · rename_i ledger0 hledger0
        split at h
        · exact absurd h (by simp)
        · obtain ⟨hsum, hlen⟩ := hst who ledger0 hledger0
          have hst1 : wfState { st with
              ledgerOf := setm st.ledgerOf who (some { ledger0 with last_reward := some era }) } := by
            intro c' l' hl'
            change setm st.ledgerOf who _ c' = some l' at hl'
            by_cases hc : c' = who
            · subst hc; rw [setm_same] at hl'; cases hl'; exact ⟨hsum, hlen⟩
            · rw [setm_ne _ _ _ hc] at hl'; exact hst c' l' hl'
          dsimp only at h
          split at h
          · cases h; exact wf_ledgerOf_eq (make_payout_wf _ _ _ hst1) rfl
          · cases h; exact make_payout_wf _ _ _ hst1

/-- Claim C1: after every ledger-mutating dispatch (bond, bond_extra, unbond,
withdraw_unbonded, rebond, slash application, payouts with their Staked
destination), every stored ledger satisfies total = active + sum of the
unlocking chunk values and has at most 32 unlocking chunks. -/
theorem dispatch_preserves_ledger_invariant (cfg : Config) (st : State)
    (d : Dispatch) (hst : wfState st) : wfState (applyDispatch cfg st d) := by
  cases d with
  | bondD stash controller value payee =>
    exact commit_wf hst (bond_ok_wf cfg st stash controller value payee hst)
  | bondExtraD stash maxAdditional =>
    exact commit_wf hst (bond_extra_ok_wf st stash maxAdditional hst)
  | unbondD controller value =>
    exact commit_wf hst (unbond_ok_wf cfg st controller value hst)
  | withdrawUnbondedD controller =>
    exact commit_wf hst (withdraw_unbonded_ok_wf st controller hst)
  | rebondD controller value =>
    exact commit_wf hst (rebond_ok_wf st controller value hst)
  | applySlashD stash value =>
    exact do_slash_wf cfg st stash value hst
  | payoutValidatorD who era =>
    exact commit_wf hst (do_payout_validator_ok_wf st who era hst)
  | payoutNominatorD who era entries =>
    exact commit_wf hst (do_payout_nominator_ok_wf st who era entries hst)

/-- Witness for C1 at a concrete dispatch and state. -/
theorem dispatch_preserves_ledger_invariant_witness :
    wfState (applyDispatch ⟨1, 3, 2⟩ emptyState (.bondD 1 2 5 .Stash)) :=
  dispatch_preserves_ledger_invariant ⟨1, 3, 2⟩ emptyState (.bondD 1 2 5 .Stash)
    (fun _ _ h => Option.noConfusion h)

/-! Claims C3 and C4: unbond and bond dispatch behaviour. -/

/-- Claim C3 (amended): unbond fails with NotController without a ledger and
with NoMoreChunks at 32 or more chunks; otherwise it computes
v = min (value, active); when v = 0 the ledger is left unchanged (nothing is
appended), and when 0 < v it drains active to zero whenever active − v would
fall below the minimum balance and appends the single resulting chunk with
era = current_era + bonding_duration. -/
theorem unbond_spec (cfg : Config) (st : State) (controller value : Nat) :
    (st.ledgerOf controller = none →
      unbond cfg st controller value = .error .NotController) ∧
    (∀ l, st.ledgerOf controller = some l →
      (MAX_UNLOCKING_CHUNKS ≤ l.unlocking.length →
        unbond cfg st controller value = .error .NoMoreChunks) ∧
      (l.unlocking.length < MAX_UNLOCKING_CHUNKS →
        (min value l.active = 0 → unbond cfg st controller value = .ok st) ∧
        (0 < min value l.active →
          unbond cfg st controller value = .ok (update_ledger st controller
            (if l.active - min value l.active < cfg.minimumBalance then
              { l with active := 0
                       unlocking := l.unlocking ++
                         [⟨l.active, st.currentEra.getD 0 + cfg.bondingDuration⟩] }
             else
              { l with active := l.active - min value l.active
                       unlocking := l.unlocking ++
                         [⟨min value l.active,
                           st.currentEra.getD 0 + cfg.bondingDuration⟩] }))))) := by
  constructor
  · intro h
    simp [unbond, h]
  · intro l hl
    constructor
    · intro hge
      simp only [unbond, hl]
      rw [if_neg (by omega)]
    · intro hlen
      constructor
      · intro h0
        simp only [unbond, hl]
        rw [if_pos hlen]
        rw [if_pos h0]
      · intro hpos
        have hminle : min value l.active ≤ l.active := Nat.min_le_right _ _
        simp only [unbond, hl]
        rw [if_pos hlen]
        rw [if_neg (by omega)]
        by_cases hd : l.active - min value l.active < cfg.minimumBalance
        · rw [if_pos hd, if_pos hd]
          have harith : min value l.active + (l.active - min value l.active) = l.active := by
            omega
          rw [harith]
        · rw [if_neg hd, if_neg hd]

def cfgC3 : Config := ⟨5, 3, 2⟩

def ledgerC3 : StakingLedger := ⟨3, 2, 2, [], none⟩

def stC3 : State :=
  { emptyState with
    ledgerOf := setm emptyState.ledgerOf 7 (some ledgerC3)
    bonded := setm emptyState.bonded 3 (some 7) }

/-- Counterexample to C3 as stated: for value = 0 the claim computes
v = min (0, active) = 0, notes active − v = 2 is below minimum_balance = 5
and therefore demands active be drained into an appended unlocking chunk,
yet unbond returns the state unchanged, appending nothing. -/
theorem unbond_zero_value_counterexample :
    stC3.ledgerOf 7 = some ledgerC3 ∧
    ledgerC3.unlocking.length < MAX_UNLOCKING_CHUNKS ∧
    ledgerC3.active - min 0 ledgerC3.active < cfgC3.minimumBalance ∧
    unbond cfgC3 stC3 7 0 = .ok stC3 ∧
    stC3.ledgerOf 7 = some ⟨3, 2, 2, [], none⟩ := by
  refine ⟨rfl, by decide, by decide, rfl, rfl⟩

/-- Witness for the amended C3 at a concrete input. -/
theorem unbond_spec_witness :
    unbond cfgC3 stC3 7 1 = .ok (update_ledger stC3 7
      { ledgerC3 with active := 0
                      unlocking := [⟨2, cfgC3.bondingDuration⟩] }) := by
  have h := ((unbond_spec cfgC3 stC3 7 1).2 ledgerC3 rfl).2 (by decide) |>.2 (by decide)
  simpa using h

/-- Claim C4 (amended): bond fails for an already-bonded stash, an
already-paired controller, or a value below the minimum balance; on success
it locks min (value, free_balance stash) and creates a ledger whose active
and total both equal that locked amount (not the requested value), with
empty unlocking and last_reward = current_era. -/
theorem bond_spec (cfg : Config) (st : State) (stash controller value : Nat)
    (payee : RewardDestination) :
    ((st.bonded stash).isSome →
      bond cfg st stash controller value payee = .error .AlreadyBonded) ∧
    (st.bonded stash = none → (st.ledgerOf controller).isSome →
      bond cfg st stash controller value payee = .error .AlreadyPaired) ∧
    (st.bonded stash = none → st.ledgerOf controller = none →
      value < cfg.minimumBalance →
      bond cfg st stash controller value payee = .error .InsufficientValue) ∧
    (st.bonded stash = none → st.ledgerOf controller = none →
      cfg.minimumBalance ≤ value →
      ∃ st', bond cfg st stash controller value payee = .ok st' ∧
        st'.locks stash = some (min value (st.freeBalance stash)) ∧
        st'.ledgerOf controller = some
          ⟨stash, min value (st.freeBalance stash), min value (st.freeBalance stash),
            [], st.currentEra⟩ ∧
        st'.bonded stash = some controller ∧
        st'.payee stash = some payee ∧
        st'.refCount stash = st.refCount stash + 1) := by
  refine ⟨?_, ?_, ?_, ?_⟩
  · intro h
    simp [bond, h]
  · intro h1 h2
    simp [bond, h1, h2]
  · intro h1 h2 h3
    simp [bond, h1, h2, h3]
  · intro h1 h2 h3
    refine ⟨update_ledger
        { st with
          bonded := setm st.bonded stash (some controller)
          payee := setm st.payee stash (some payee)
          refCount := setm st.refCount stash (st.refCount stash + 1) } controller
        ⟨stash, min value (st.freeBalance stash), min value (st.freeBalance stash),
          [], st.currentEra⟩, ?_, ?_, ?_, ?_, ?_, ?_⟩
    · simp only [bond, h1, h2, Option.isSome_none, Bool.false_eq_true, if_false]
      rw [if_neg (by omega)]
    · show setm _ stash (some _) stash = _
      rw [setm_same]
    · show setm _ controller (some _) controller = _
      rw [setm_same]
    · show setm st.bonded stash (some controller) stash = _
      rw [setm_same]
    · show setm st.payee stash (some payee) stash = _
      rw [setm_same]
    · show setm st.refCount stash (st.refCount stash + 1) stash = _
      rw [setm_same]

def cfgC4 : Config := ⟨1, 3, 2⟩

def stC4 : State := { emptyState with freeBalance := setm emptyState.freeBalance 1 5 }

/-- Counterexample to C4 as stated: bonding value 10 from a stash with free
balance 5 succeeds and creates the ledger with active = total = 5, the
locked amount, not active = total = 10 as the claim demands. -/
theorem bond_min_free_counterexample :
    cfgC4.minimumBalance ≤ 10 ∧
    stC4.freeBalance 1 = 5 ∧
    ((bond cfgC4 stC4 1 2 10 .Stash).map (fun s => s.ledgerOf 2)
      = .ok (some ⟨1, 5, 5, [], none⟩)) ∧
    ((bond cfgC4 stC4 1 2 10 .Stash).map
        (fun s => (s.ledgerOf 2).map StakingLedger.total) = .ok (some 5)) ∧
    (5 : Nat) ≠ 10 := by
  refine ⟨by decide, rfl, rfl, rfl, by decide⟩

/-- Witness for the amended C4 at a concrete input. -/
theorem bond_spec_witness :
    ∃ st', bond cfgC4 stC4 1 2 10 .Stash = .ok st' ∧
      st'.locks 1 = some (min 10 (stC4.freeBalance 1)) ∧
      st'.ledgerOf 2 = some
        ⟨1, min 10 (stC4.freeBalance 1), min 10 (stC4.freeBalance 1), [],
          stC4.currentEra⟩ ∧
      st'.bonded 1 = some 2 ∧
      st'.payee 1 = some .Stash ∧
      st'.refCount 1 = stC4.refCount 1 + 1 :=
  (bond_spec cfgC4 stC4 1 2 10 .Stash).2.2.2 rfl rfl (by decide)

/-! Claim C5: withdraw_unbonded consolidation and stash reaping. -/

/-- Claim C5: for a controller with a ledger (satisfying the maintained
ledger invariant, with the bond mapping consistent), withdraw_unbonded
removes exactly the chunks with era at most the current era, decreasing total
by the sum of their values; if the resulting ledger is empty it reaps the
stash: lock, bond mapping, payee, validator and nominator records and
slashing metadata are removed and the reference count is decremented,
otherwise the consolidated ledger is stored back. -/
theorem withdraw_unbonded_spec (st : State) (controller e : Nat) (l : StakingLedger)
    (hl : st.ledgerOf controller = some l)
    (hce : st.currentEra = some e)
    (hwf : wfLedger l)
    (hb : st.bonded l.stash = some controller) :
    ∃ st', withdraw_unbonded st controller = .ok st' ∧
      (l.consolidate_unlocked e).unlocking
        = l.unlocking.filter (fun c => decide (e < c.era)) ∧
      l.total = (l.consolidate_unlocked e).total
        + chunkSum (l.unlocking.filter (fun c => ! decide (e < c.era))) ∧
      (((l.consolidate_unlocked e).unlocking = [] ∧ (l.consolidate_unlocked e).active = 0) →
        st'.ledgerOf controller = none ∧ st'.bonded l.stash = none ∧
        st'.payee l.stash = none ∧ st'.validators l.stash = none ∧
        st'.nominators l.stash = none ∧ st'.slashingSpans l.stash = none ∧
        st'.locks l.stash = none ∧
        st'.refCount l.stash = st.refCount l.stash - 1) ∧
      (¬ ((l.consolidate_unlocked e).unlocking = [] ∧ (l.consolidate_unlocked e).active = 0) →
        st' = update_ledger st controller (l.consolidate_unlocked e)) := by
  obtain ⟨hsum, hlen⟩ := hwf
  have hsplit := chunkSum_filter_split (fun c => decide (e < c.era)) l.unlocking
  have htotal : l.total = (l.consolidate_unlocked e).total
      + chunkSum (l.unlocking.filter (fun c => ! decide (e < c.era))) := by
    rw [consolidate_total]
    omega
  have hstash : (l.consolidate_unlocked e).stash = l.stash := rfl
  by_cases hc : ((l.consolidate_unlocked e).unlocking.isEmpty
      && ((l.consolidate_unlocked e).active == 0)) = true
  · have hprop : (l.consolidate_unlocked e).unlocking = []
        ∧ (l.consolidate_unlocked e).active = 0 := by
      simpa [List.isEmpty_iff] using hc
    refine ⟨{ st with
        bonded := setm st.bonded l.stash none
        ledgerOf := setm st.ledgerOf controller none
        payee := setm st.payee l.stash none
        validators := setm st.validators l.stash none
        nominators := setm st.nominators l.stash none
        slashingSpans := setm st.slashingSpans l.stash none
        refCount := setm st.refCount l.stash (st.refCount l.stash - 1)
        locks := setm st.locks l.stash none }, ?_, consolidate_unlocking l e, htotal, ?_, ?_⟩
    · simp only [withdraw_unbonded, hl, hce]
      rw [if_pos hc]
      simp only [kill_stash, hstash, hb]
      rw [hce]
    · intro _
      refine ⟨?_, ?_, ?_, ?_, ?_, ?_, ?_, ?_⟩ <;> exact setm_same _ _ _
    · intro hcontra
      exact absurd hprop hcontra
  · have hprop : ¬ ((l.consolidate_unlocked e).unlocking = []
        ∧ (l.consolidate_unlocked e).active = 0) := by
      intro hcontra
      apply hc
      simp [List.isEmpty_iff, hcontra.1, hcontra.2]
    refine ⟨update_ledger st controller (l.consolidate_unlocked e), ?_,
      consolidate_unlocking l e, htotal, ?_, fun _ => rfl⟩
    · simp only [withdraw_unbonded, hl, hce]
      rw [if_neg hc]
    · intro hcontra
      exact absurd hcontra hprop

def lC5 : StakingLedger := ⟨3, 6, 0, [⟨6, 1⟩], none⟩

def stC5 : State :=
  { emptyState with
    ledgerOf := setm emptyState.ledgerOf 7 (some lC5)
    bonded := setm emptyState.bonded 3 (some 7)
    payee := setm emptyState.payee 3 (some .Stash)
    locks := setm emptyState.locks 3 (some 6)
    refCount := setm emptyState.refCount 3 1
    currentEra := some 2 }

/-- Witness for C5 at a concrete reaping input. -/
theorem withdraw_unbonded_spec_witness :
    ∃ st', withdraw_unbonded stC5 7 = .ok st' ∧
      st'.ledgerOf 7 = none ∧ st'.bonded 3 = none ∧ st'.locks 3 = none ∧
      st'.refCount 3 = 0 := by
  obtain ⟨st', hok, _, _, hreap, _⟩ :=
    withdraw_unbonded_spec stC5 7 2 lC5 rfl rfl
      (by unfold wfLedger; exact ⟨by decide, by decide⟩) rfl
  obtain ⟨h1, h2, _, _, _, _, h7, h8⟩ := hreap (by decide)
  exact ⟨st', hok, h1, h2, h7, h8⟩

/-! Claim C6: the unbond/rebond round trip. -/

/-- Claim C6 (amended): for 0 < v ≤ active, post-unbond active not below the
minimum balance, and fewer than 32 unlocking chunks (so that unbond itself
succeeds), unbond v then rebond v restores active, unlocking and total;
rebond pops the freshly appended tail chunk.  Rebond on a ledger with an
empty unlocking queue fails with NoUnlockChunk. -/
theorem unbond_rebond_roundtrip (cfg : Config) (st : State) (controller v : Nat)
    (l : StakingLedger) (hl : st.ledgerOf controller = some l)
    (hv0 : 0 < v) (hvle : v ≤ l.active)
    (hmb : cfg.minimumBalance ≤ l.active - v)
    (hlen : l.unlocking.length < MAX_UNLOCKING_CHUNKS) :
    (∃ l2, (unbond_then_rebond cfg st controller v).ledgerOf controller = some l2 ∧
      l2.active = l.active ∧ l2.unlocking = l.unlocking ∧ l2.total = l.total) ∧
    (∀ (st0 : State) (c0 v0 : Nat) (l0 : StakingLedger), st0.ledgerOf c0 = some l0 →
      l0.unlocking = [] → rebond st0 c0 v0 = .error .NoUnlockChunk) := by
  constructor
  · have hmin : min v l.active = v := Nat.min_eq_left hvle
    set era := st.currentEra.getD 0 + cfg.bondingDuration with hera
    have hunb : unbond cfg st controller v = .ok (update_ledger st controller
        { l with active := l.active - v, unlocking := l.unlocking ++ [⟨v, era⟩] }) := by
      simp only [unbond, hl]
      rw [if_pos hlen, hmin]
      rw [if_neg (by omega)]
      rw [if_neg (by omega)]
    set l1 : StakingLedger :=
      { l with active := l.active - v, unlocking := l.unlocking ++ [⟨v, era⟩] } with hl1
    have hst1 : (commit st (unbond cfg st controller v)).ledgerOf controller = some l1 := by
      rw [hunb]
      exact setm_same _ _ _
    have hreb : l1.rebond v = { l1 with active := l.active, unlocking := l.unlocking } := by
      unfold StakingLedger.rebond
      have hrev : l1.unlocking.reverse = ⟨v, era⟩ :: l.unlocking.reverse := by
        simp [hl1]
      rw [hrev]
      simp only [rebondRev]
      rw [if_pos (by omega), if_pos (by omega)]
      have : l.active - v + v = l.active := Nat.sub_add_cancel hvle
      simp [this]
    have hrebond : rebond (commit st (unbond cfg st controller v)) controller v
        = .ok (update_ledger (commit st (unbond cfg st controller v)) controller
            (l1.rebond v)) := by
      simp only [rebond, hst1]
      rw [if_pos (by simp [hl1])]
    have hfinal : unbond_then_rebond cfg st controller v
        = commit (commit st (unbond cfg st controller v))
            (rebond (commit st (unbond cfg st controller v)) controller v) := rfl
    rw [hfinal, hrebond]
    refine ⟨{ l1 with active := l.active, unlocking := l.unlocking }, ?_, rfl, rfl, rfl⟩
    show setm _ controller (some (l1.rebond v)) controller = _
    rw [setm_same, hreb]
  · intro st0 c0 v0 l0 h0 hempty
    simp [rebond, h0, hempty]

def cfgC6 : Config := ⟨1, 3, 2⟩

def lC6a : StakingLedger := ⟨0, 420, 100, List.replicate 32 ⟨10, 3⟩, none⟩

def stC6a : State := { emptyState with ledgerOf := setm emptyState.ledgerOf 1 (some lC6a) }

def lC6b : StakingLedger := ⟨0, 10, 10, [⟨0, 5⟩], none⟩

def stC6b : State := { emptyState with ledgerOf := setm emptyState.ledgerOf 1 (some lC6b) }

/-- Counterexample to C6 as stated.  First input: a ledger already holding 32
unlocking chunks satisfies the claim's hypotheses (v = 10 ≤ active = 100 and
active − v ≥ minimum_balance) but unbond fails with NoMoreChunks and reverts,
after which rebond moves 10 from the newest existing chunk, leaving active at
110 instead of the pre-call 100.  Second input: v = 0 with a zero-valued
newest chunk; unbond is a no-op but rebond 0 pops the zero chunk, changing
unlocking. -/
theorem unbond_rebond_counterexample :
    ((10 ≤ lC6a.active ∧ cfgC6.minimumBalance ≤ lC6a.active - 10) ∧
      ((unbond_then_rebond cfgC6 stC6a 1 10).ledgerOf 1).map StakingLedger.active
        = some 110 ∧ lC6a.active = 100) ∧
    ((0 ≤ lC6b.active ∧ cfgC6.minimumBalance ≤ lC6b.active - 0) ∧
      ((unbond_then_rebond cfgC6 stC6b 1 0).ledgerOf 1).map StakingLedger.unlocking
        = some [] ∧ lC6b.unlocking = [⟨0, 5⟩]) := by
  exact ⟨⟨⟨by decide, by decide⟩, by decide, by decide⟩,
    ⟨⟨by decide, by decide⟩, by decide, by decide⟩⟩

def lC6w : StakingLedger := ⟨0, 50, 50, [], none⟩

def stC6w : State := { emptyState with ledgerOf := setm emptyState.ledgerOf 1 (some lC6w) }

/-- Witness for the amended C6 at a concrete input. -/
theorem unbond_rebond_roundtrip_witness :
    ∃ l2, (unbond_then_rebond cfgC6 stC6w 1 20).ledgerOf 1 = some l2 ∧
      l2.active = lC6w.active ∧ l2.unlocking = lC6w.unlocking ∧ l2.total = lC6w.total :=
  (unbond_rebond_roundtrip cfgC6 stC6w 1 20 lC6w rfl (by decide) (by decide)
    (by decide) (by decide)).1

/-! Claim C7: the validator payout formula. -/

theorem make_payout_pays (st : State) (stash who : Nat) (l : StakingLedger) (amount : Nat)
    (hb : st.bonded stash = some who) (hl : st.ledgerOf who = some l) :
    (make_payout st stash amount).2 = some amount ∧
    (make_payout st stash amount).1.events = st.events ∧
    ((make_payout st stash amount).1.ledgerOf who).map StakingLedger.last_reward
      = some l.last_reward := by
  unfold make_payout
  cases hpd : (st.payee stash).getD .Staked with
  | Controller =>
    dsimp only
    rw [hb]
    refine ⟨rfl, rfl, ?_⟩
    show (st.ledgerOf who).map StakingLedger.last_reward = some l.last_reward
    rw [hl]
    rfl
  | Stash =>
    dsimp only
    refine ⟨rfl, rfl, ?_⟩
    show (st.ledgerOf who).map StakingLedger.last_reward = some l.last_reward
    rw [hl]
    rfl
  | Staked =>
    dsimp only
    rw [hb]
    dsimp only
    rw [hl]
    refine ⟨rfl, rfl, ?_⟩
    show (setm st.ledgerOf who (some { l with active := l.active + amount, total := l.total + amount }) who).map StakingLedger.last_reward = some l.last_reward
    rw [setm_same]
    rfl

/-- Claim C7: for a controller with a ledger, an era whose reward is still
recorded and not yet claimed by this staker (and a consistent bond mapping so
the payment can be routed), payout_validator succeeds, marks the era claimed,
and pays era_payout scaled by the point share times
commission + (1 − commission) · own/total, with commission the
era-snapshotted preference and own/total the era's stored exposure. -/
theorem do_payout_validator_spec (st : State) (who era era_payout : Nat)
    (l : StakingLedger)
    (hrew : st.erasValidatorReward era = some era_payout)
    (hl : st.ledgerOf who = some l)
    (hclaim : claimedAlready l.last_reward era = false)
    (hb : st.bonded l.stash = some who) :
    ∃ st', do_payout_validator st who era = .ok st' ∧
      st'.events = (who,
        ((Perbill.fromRational ((st.erasRewardPoints era).individual l.stash)
            (st.erasRewardPoints era).total).satMul
          ((st.erasValidatorPrefs era l.stash).commission.satAdd
            ((Perbill.one.satSub (st.erasValidatorPrefs era l.stash).commission).satMul
              (Perbill.fromRational (st.erasStakers era l.stash).own
                (st.erasStakers era l.stash).total)))).mulBalance era_payout)
        :: st.events ∧
      (st'.ledgerOf who).map StakingLedger.last_reward = some (some era) := by
  have hb' : ({ st with ledgerOf := setm st.ledgerOf who (some { l with last_reward := some era }) } : State).bonded l.stash = some who := hb
  have hl' : ({ st with ledgerOf := setm st.ledgerOf who (some { l with last_reward := some era }) } : State).ledgerOf who = some { l with last_reward := some era } := setm_same _ _ _
  obtain ⟨hp2, hpev, hplr⟩ := make_payout_pays _ l.stash who _
    (((Perbill.fromRational ((st.erasRewardPoints era).individual l.stash)
        (st.erasRewardPoints era).total).satMul
      ((st.erasValidatorPrefs era l.stash).commission.satAdd
        ((Perbill.one.satSub (st.erasValidatorPrefs era l.stash).commission).satMul
          (Perbill.fromRational (st.erasStakers era l.stash).own
            (st.erasStakers era l.stash).total)))).mulBalance era_payout) hb' hl'
  simp only [do_payout_validator, hrew, hl]
  rw [if_neg (by simp [hclaim])]
  simp only [hp2]
  refine ⟨_, rfl, ?_, ?_⟩
  · show (who, _) :: _ = (who, _) :: st.events
    rw [hpev]
  · show ((make_payout _ _ _).1.ledgerOf who).map StakingLedger.last_reward = some (some era)
    rw [hplr]

def stC7 : State :=
  { emptyState with
    ledgerOf := setm emptyState.ledgerOf 7 (some ⟨3, 100, 100, [], none⟩)
    bonded := setm emptyState.bonded 3 (some 7)
    payee := setm emptyState.payee 3 (some .Stash)
    erasValidatorReward := setm emptyState.erasValidatorReward 4 (some 600)
    erasStakers := fun e s => if e = 4 ∧ s = 3 then ⟨1500, 1000, [⟨5, 500⟩]⟩ else defaultExposure
    erasRewardPoints := fun e => if e = 4 then ⟨60, fun s => if s = 3 then 40 else 0⟩ else ⟨0, fun _ => 0⟩ }

/-- Witness for C7 at a concrete input. -/
theorem do_payout_validator_spec_witness :
    ∃ st', do_payout_validator stC7 7 4 = .ok st' ∧
      st'.events = (7,
        ((Perbill.fromRational ((stC7.erasRewardPoints 4).individual 3)
            (stC7.erasRewardPoints 4).total).satMul
          ((stC7.erasValidatorPrefs 4 3).commission.satAdd
            ((Perbill.one.satSub (stC7.erasValidatorPrefs 4 3).commission).satMul
              (Perbill.fromRational (stC7.erasStakers 4 3).own
                (stC7.erasStakers 4 3).total)))).mulBalance 600) :: stC7.events ∧
      (st'.ledgerOf 7).map StakingLedger.last_reward = some (some 4) :=
  do_payout_validator_spec stC7 7 4 600 ⟨3, 100, 100, [], none⟩ rfl rfl (by decide) rfl

/-! Claim C10: payout_nominator silently skips bogus entries yet consumes
the era claim. -/

theorem nominatorRewardStep_invalid (st : State) (era stash : Nat) (acc : Perbill)
    (ve : Nat × Nat) (h : validEntry st era stash ve = false) :
    nominatorRewardStep st era stash acc ve = acc := by
  unfold validEntry at h
  simp only [nominatorRewardStep]
  cases hget : (st.erasStakersClipped era ve.1).others.get? ve.2 with
  | none => rfl
  | some ne =>
    rw [hget] at h
    have hne : ne.who ≠ stash := by simpa using h
    dsimp only
    rw [if_pos hne]

theorem nominatorRewardFold_filter_aux (st : State) (era stash : Nat)
    (entries : List (Nat × Nat)) : ∀ (acc : Perbill),
    entries.foldl (nominatorRewardStep st era stash) acc
      = (entries.filter (validEntry st era stash)).foldl
          (nominatorRewardStep st era stash) acc := by
  induction entries with
  | nil => intro acc; rfl
  | cons ve rest ih =>
    intro acc
    by_cases hv : validEntry st era stash ve = true
    · simp only [List.foldl_cons, List.filter_cons, hv, if_true]
      exact ih _
    · have hv' : validEntry st era stash ve = false := by
        cases hb : validEntry st era stash ve
        · rfl
        · exact absurd hb hv
      simp only [List.foldl_cons, List.filter_cons, hv', Bool.false_eq_true, if_false]
      rw [nominatorRewardStep_invalid st era stash acc ve hv']
      exact ih _

/-- Invalid entries contribute nothing: the nominator reward over any entry
list equals the reward over its valid entries only. -/
theorem nominatorRewardFold_filter (st : State) (era stash : Nat)
    (entries : List (Nat × Nat)) :
    nominatorRewardFold st era stash entries
      = nominatorRewardFold st era stash (entries.filter (validEntry st era stash)) :=
  nominatorRewardFold_filter_aux st era stash entries Perbill.zero

theorem make_payout_preserves_reward (st : State) (stash amount : Nat) :
    (make_payout st stash amount).1.erasValidatorReward = st.erasValidatorReward := by
  unfold make_payout
  split
  · split <;> rfl
  · rfl
  · split
    · rfl
    · split <;> rfl

theorem do_payout_nominator_claimed (st : State) (who era : Nat)
    (entries : List (Nat × Nat)) (era_payout : Nat) (l2 : StakingLedger)
    (hmax : ¬ entries.length > MAX_NOMINATIONS)
    (hrew : st.erasValidatorReward era = some era_payout)
    (hl : st.ledgerOf who = some l2)
    (hlr : l2.last_reward = some era) :
    do_payout_nominator st who era entries = .error .InvalidEraToReward := by
  unfold do_payout_nominator
  rw [if_neg hmax, hrew]
  dsimp only
  rw [hl]
  dsimp only
  rw [if_pos (by simp [claimedAlready, hlr])]

/-- Claim C10: with a payable era, at most MAX_NOMINATIONS entries and an
unclaimed ledger (and consistent bond mapping), payout_nominator succeeds,
marks the era claimed, skips every entry whose clipped-exposure index is out
of range or whose exposure account is not the caller's stash (those entries
contribute zero), pays zero when every entry is skipped, and a repeated call
for the era fails with InvalidEraToReward: the claim is consumed anyway. -/
theorem do_payout_nominator_spec (st : State) (who era era_payout : Nat)
    (l : StakingLedger) (entries : List (Nat × Nat))
    (hmax : entries.length ≤ MAX_NOMINATIONS)
    (hrew : st.erasValidatorReward era = some era_payout)
    (hl : st.ledgerOf who = some l)
    (hclaim : claimedAlready l.last_reward era = false)
    (hb : st.bonded l.stash = some who) :
    ∃ st', do_payout_nominator st who era entries = .ok st' ∧
      (st'.ledgerOf who).map StakingLedger.last_reward = some (some era) ∧
      st'.events = (who,
        (nominatorRewardFold st era l.stash entries).mulBalance era_payout) :: st.events ∧
      nominatorRewardFold st era l.stash entries
        = nominatorRewardFold st era l.stash
            (entries.filter (validEntry st era l.stash)) ∧
      ((∀ ve ∈ entries, validEntry st era l.stash ve = false) →
        st'.events = (who, 0) :: st.events) ∧
      do_payout_nominator st' who era entries = .error .InvalidEraToReward := by
  have hb' : ({ st with ledgerOf := setm st.ledgerOf who (some { l with last_reward := some era }) } : State).bonded l.stash = some who := hb
  have hl' : ({ st with ledgerOf := setm st.ledgerOf who (some { l with last_reward := some era }) } : State).ledgerOf who = some { l with last_reward := some era } := setm_same _ _ _
  have hfold : nominatorRewardFold { st with ledgerOf := setm st.ledgerOf who (some { l with last_reward := some era }) } era l.stash entries = nominatorRewardFold st era l.stash entries := rfl
  obtain ⟨hp2, hpev, hplr⟩ := make_payout_pays _ l.stash who _
    ((nominatorRewardFold { st with ledgerOf := setm st.ledgerOf who (some { l with last_reward := some era }) } era l.stash entries).mulBalance era_payout) hb' hl'
  have hnotmax : ¬ entries.length > MAX_NOMINATIONS := by omega
  unfold do_payout_nominator
  rw [if_neg hnotmax, hrew]
  dsimp only
  rw [hl]
  dsimp only
  rw [if_neg (by simp [hclaim])]
  rw [hp2]
  refine ⟨_, rfl, ?_, ?_, nominatorRewardFold_filter st era l.stash entries, ?_, ?_⟩
  · show ((make_payout _ _ _).1.ledgerOf who).map StakingLedger.last_reward = some (some era)
    rw [hplr]
  · show (who, _) :: _ = (who, _) :: st.events
    rw [hpev, hfold]
  · intro hall
    show (who, _) :: _ = (who, 0) :: st.events
    rw [hpev, hfold]
    have hfil : entries.filter (validEntry st era l.stash) = [] := by
      rw [List.filter_eq_nil_iff]
      intro ve hve
      simp [hall ve hve]
    have hzero : nominatorRewardFold st era l.stash entries = Perbill.zero := by
      rw [nominatorRewardFold_filter, hfil]
      rfl
    rw [hzero]
    show (who, (0 : Nat) * era_payout / Perbill.scale) :: _ = _
    norm_num
  · obtain ⟨l2, hl2, hlr2⟩ := Option.map_eq_some'.mp hplr
    apply do_payout_nominator_claimed _ who era entries era_payout l2 hnotmax
    · show (make_payout _ _ _).1.erasValidatorReward era = some era_payout
      rw [make_payout_preserves_reward]
      exact hrew
    · show (make_payout _ _ _).1.ledgerOf who = some l2
      exact hl2
    · exact hlr2

def stC10 : State :=
  { emptyState with
    ledgerOf := setm emptyState.ledgerOf 7 (some ⟨3, 100, 100, [], none⟩)
    bonded := setm emptyState.bonded 3 (some 7)
    payee := setm emptyState.payee 3 (some .Stash)
    erasValidatorReward := setm emptyState.erasValidatorReward 4 (some 600)
    erasStakersClipped := fun e s => if e = 4 ∧ s = 9 then ⟨1300, 1000, [⟨5, 300⟩]⟩ else defaultExposure }

/-- Witness for C10 at a concrete input whose single entry is skipped (the
exposure at index 0 belongs to stash 5, not the caller's stash 3): the call
still succeeds, pays zero, and consumes the era. -/
theorem do_payout_nominator_spec_witness :
    ∃ st', do_payout_nominator stC10 7 4 [(9, 0)] = .ok st' ∧
      (st'.ledgerOf 7).map StakingLedger.last_reward = some (some 4) ∧
      st'.events = (7, (nominatorRewardFold stC10 4 3 [(9, 0)]).mulBalance 600)
        :: stC10.events ∧
      nominatorRewardFold stC10 4 3 [(9, 0)]
        = nominatorRewardFold stC10 4 3 ([(9, 0)].filter (validEntry stC10 4 3)) ∧
      ((∀ ve ∈ [(9, 0)], validEntry stC10 4 3 ve = false) →
        st'.events = (7, 0) :: stC10.events) ∧
      do_payout_nominator st' 7 4 [(9, 0)] = .error .InvalidEraToReward :=
  do_payout_nominator_spec stC10 7 4 600 ⟨3, 100, 100, [], none⟩ [(9, 0)]
    (by decide) rfl rfl (by decide) rfl

/-! Claim C9: cancel_deferred_slash. -/

theorem insertSorted_of_le (x : Nat) (ys : List Nat) (hall : ∀ y ∈ ys, x ≤ y) :
    insertSorted x ys = x :: ys := by
  cases ys with
  | nil => rfl
  | cons y ys =>
    unfold insertSorted
    rw [if_pos (hall y (List.mem_cons_self y ys))]

theorem insertionSort_sorted_id (l : List Nat) (h : List.Pairwise (· ≤ ·) l) :
    insertionSort l = l := by
  induction l with
  | nil => rfl
  | cons x xs ih =>
    unfold insertionSort
    rw [ih h.tail]
    exact insertSorted_of_le x xs (fun y hy => List.rel_of_pairwise_cons h hy)

theorem filterIdxFrom_congr {α : Type} (p q : Nat → Bool) (l : List α) : ∀ (n : Nat),
    (∀ j, n ≤ j → p j = q j) → filterIdxFrom p n l = filterIdxFrom q n l := by
  induction l with
  | nil => intro n _; rfl
  | cons x xs ih =>
    intro n h
    unfold filterIdxFrom
    rw [h n (Nat.le_refl n), ih (n + 1) (fun j hj => h j (by omega))]

theorem filterIdxFrom_false {α : Type} (l : List α) : ∀ (n : Nat),
    filterIdxFrom (fun _ => false) n l = l := by
  induction l with
  | nil => intro n; rfl
  | cons x xs ih =>
    intro n
    unfold filterIdxFrom
    rw [if_neg (by simp), ih (n + 1)]

theorem filterIdx_erase {α : Type} (i : Nat) (rest : List Nat)
    (hrest : ∀ j ∈ rest, i < j) (l : List α) : ∀ (removed : Nat),
    removed ≤ i → i - removed < l.length →
    filterIdxFrom (fun j => decide (j ∈ i :: rest)) removed l
      = filterIdxFrom (fun j => decide (j ∈ rest)) (removed + 1) (l.eraseIdx (i - removed)) := by
  induction l with
  | nil =>
    intro removed _ h2
    simp at h2
  | cons x xs ih =>
    intro removed h1 h2
    by_cases heq : removed = i
    · subst heq
      have hz : removed - removed = 0 := by omega
      rw [hz]
      show (if decide (removed ∈ removed :: rest) then
          filterIdxFrom (fun j => decide (j ∈ removed :: rest)) (removed + 1) xs
        else x :: filterIdxFrom (fun j => decide (j ∈ removed :: rest)) (removed + 1) xs)
        = filterIdxFrom (fun j => decide (j ∈ rest)) (removed + 1) xs
      rw [if_pos (by simp)]
      exact filterIdxFrom_congr _ _ xs (removed + 1)
        (fun j hj => by simp [List.mem_cons]; omega)
    · have hlt : removed < i := by omega
      have hsub : i - removed = (i - (removed + 1)) + 1 := by omega
      rw [hsub]
      show (if decide (removed ∈ i :: rest) then
          filterIdxFrom (fun j => decide (j ∈ i :: rest)) (removed + 1) xs
        else x :: filterIdxFrom (fun j => decide (j ∈ i :: rest)) (removed + 1) xs)
        = filterIdxFrom (fun j => decide (j ∈ rest)) (removed + 1)
            (x :: xs.eraseIdx (i - (removed + 1)))
      have hm1 : removed ∉ i :: rest := by
        intro hmem
        rcases List.mem_cons.mp hmem with hcase | hcase
        · omega
        · exact absurd (hrest removed hcase) (by omega)
      rw [if_neg (by simpa using hm1)]
      show x :: filterIdxFrom (fun j => decide (j ∈ i :: rest)) (removed + 1) xs
        = if decide ((removed + 1) ∈ rest) then
            filterIdxFrom (fun j => decide (j ∈ rest)) (removed + 1 + 1)
              (xs.eraseIdx (i - (removed + 1)))
          else x :: filterIdxFrom (fun j => decide (j ∈ rest)) (removed + 1 + 1)
              (xs.eraseIdx (i - (removed + 1)))
      have hm2 : (removed + 1) ∉ rest := fun hmem => absurd (hrest _ hmem) (by omega)
      rw [if_neg (by simpa using hm2)]
      have hih := ih (removed + 1) (by omega) (by simp at h2 ⊢; omega)
      rw [← hih]

theorem cancelLoop_removes {α : Type} (idxs : List Nat) : ∀ (removed : Nat) (l : List α),
    List.Pairwise (· < ·) idxs →
    (∀ i ∈ idxs, removed ≤ i) →
    (∀ i ∈ idxs, i - removed < l.length) →
    cancelLoop idxs removed l
      = .ok (filterIdxFrom (fun j => decide (j ∈ idxs)) removed l) := by
  induction idxs with
  | nil =>
    intro removed l _ _ _
    unfold cancelLoop
    rw [filterIdxFrom_congr (fun j => decide (j ∈ ([] : List Nat))) (fun _ => false) l removed
      (fun j _ => by simp), filterIdxFrom_false]
  | cons i rest ih =>
    intro removed l hp hlb hrange
    unfold cancelLoop
    rw [if_pos (hlb i (List.mem_cons_self i rest)),
      if_pos (hrange i (List.mem_cons_self i rest))]
    have hrest : ∀ j ∈ rest, i < j := fun j hj => List.rel_of_pairwise_cons hp hj
    have hlbi := hlb i (List.mem_cons_self i rest)
    have hri := hrange i (List.mem_cons_self i rest)
    rw [ih (removed + 1) (l.eraseIdx (i - removed)) hp.tail
      (fun j hj => by have := hrest j hj; omega)
      (fun j hj => by
        have h1 := hrest j hj
        have h2 := hrange j (List.mem_cons_of_mem i hj)
        rw [List.length_eraseIdx_of_lt hri]
        omega)]
    rw [← filterIdx_erase i rest hrest l removed hlbi hri]

/-- Claim C9 (amended): cancel_deferred_slash requires a privileged origin;
the submitted indices are sorted before processing, so a list that is not
strictly increasing is not necessarily rejected; for a strictly increasing,
in-range index list the call succeeds and removes exactly the indexed
entries of the era's unapplied-slash queue, retaining the rest in order and
leaving other eras untouched. -/
theorem cancel_deferred_slash_spec (st : State) (isPrivileged : Bool) (era : Nat)
    (slash_indices : List Nat) :
    (isPrivileged = false →
      cancel_deferred_slash st isPrivileged era slash_indices = .error .BadOrigin) ∧
    (isPrivileged = true →
      List.Pairwise (· < ·) slash_indices →
      (∀ i ∈ slash_indices, i < (st.unappliedSlashes era).length) →
      ∃ st', cancel_deferred_slash st isPrivileged era slash_indices = .ok st' ∧
        st'.unappliedSlashes era
          = filterIdxFrom (fun j => decide (j ∈ slash_indices)) 0 (st.unappliedSlashes era) ∧
        ∀ e', e' ≠ era → st'.unappliedSlashes e' = st.unappliedSlashes e') := by
  constructor
  · intro h
    simp [cancel_deferred_slash, h]
  · intro hpriv hsorted hrange
    have hsortid : insertionSort slash_indices = slash_indices :=
      insertionSort_sorted_id slash_indices (hsorted.imp (fun h => Nat.le_of_lt h))
    have hloop := cancelLoop_removes slash_indices 0 (st.unappliedSlashes era) hsorted
      (fun i _ => Nat.zero_le i) (fun i hi => by simpa using hrange i hi)
    refine ⟨{ st with unappliedSlashes := setm st.unappliedSlashes era (filterIdxFrom (fun j => decide (j ∈ slash_indices)) 0 (st.unappliedSlashes era)) }, ?_, ?_, ?_⟩
    · unfold cancel_deferred_slash
      rw [if_neg (by simp [hpriv]), hsortid, hloop]
    · exact setm_same _ _ _
    · intro e' he'
      exact setm_ne _ _ _ he'

def uA : UnappliedSlashM := ⟨1, 10, [], [], 0⟩

def uB : UnappliedSlashM := ⟨2, 20, [], [], 0⟩

def stC9 : State :=
  { emptyState with unappliedSlashes := setm emptyState.unappliedSlashes 0 [uA, uB] }

/-- Counterexample to C9 as stated: the index list [1, 1] is not strictly
increasing, so the claim demands rejection with DuplicateIndex; instead the
call succeeds — the sorted duplicate passes the removed ≤ index check — and
removes both queue entries (positions 1 and then 0), not only the indexed
entry. -/
theorem cancel_duplicate_counterexample :
    (cancel_deferred_slash stC9 true 0 [1, 1]).map (fun s => s.unappliedSlashes 0)
      = .ok [] ∧
    cancel_deferred_slash stC9 true 0 [1, 1] ≠ .error .DuplicateIndex := by
  have heval : cancel_deferred_slash stC9 true 0 [1, 1]
      = .ok { stC9 with unappliedSlashes := setm stC9.unappliedSlashes 0 [] } := rfl
  constructor
  · rw [heval]
    rfl
  · rw [heval]
    exact fun h => Except.noConfusion h

/-- Witness for the amended C9 at a concrete input. -/
theorem cancel_deferred_slash_spec_witness :
    ∃ st', cancel_deferred_slash stC9 true 0 [0] = .ok st' ∧
      st'.unappliedSlashes 0
        = filterIdxFrom (fun j => decide (j ∈ [0])) 0 (stC9.unappliedSlashes 0) ∧
      ∀ e', e' ≠ 0 → st'.unappliedSlashes e' = stC9.unappliedSlashes e' :=
  (cancel_deferred_slash_spec stC9 true 0 [0]).2 rfl (by simp) (by decide)

/-! Claim C8: election solution submission. -/

/-- Claim C8: while a queued solution exists, a submission whose claimed
score is not a strict improvement (lexicographic: first component maximised,
latter two minimised) is rejected with PhragmenWeakSubmission, and every
rejection branch of the validation pipeline leaves QueuedElected and
QueuedScore unchanged.  The sp-phragmen primitives are arbitrary parameters,
so this holds for every behaviour of the external election functions. -/
theorem check_and_replace_solution_spec (cfg : Config)
    (intoAssignment : (Nat → Option Nat) → (Nat → Option Nat) → Option (List Assignment))
    (ratioToStaked : List Assignment → List StakedAssignment)
    (buildSupportMap : List Nat → List StakedAssignment → List (Nat × Support) × Nat)
    (evaluateSupport : List (Nat × Support) → Score)
    (st : State) (winners : List Nat) (compute : ElectionCompute)
    (claimed_score : Score) :
    (∀ qs, st.electionOpen = true → st.queuedScore = some qs →
      is_score_better qs claimed_score = false →
      check_and_replace_solution cfg intoAssignment ratioToStaked buildSupportMap
        evaluateSupport st winners compute claimed_score
        = (st, some .PhragmenWeakSubmission)) ∧
    (∀ st' e, check_and_replace_solution cfg intoAssignment ratioToStaked buildSupportMap
        evaluateSupport st winners compute claimed_score = (st', some e) →
      st'.queuedElected = st.queuedElected ∧ st'.queuedScore = st.queuedScore) := by
  constructor
  · intro qs hopen hqs hbad
    unfold check_and_replace_solution
    rw [if_neg (by simp [hopen])]
    rw [if_pos (by rw [hqs]; simp [hbad])]
  · intro st' e h
    unfold check_and_replace_solution at h
    dsimp only at h
    repeat' split at h
    all_goals
      first
      | (rw [Prod.mk.injEq] at h
         exact Option.noConfusion h.2)
      | (rw [Prod.mk.injEq] at h
         refine ⟨?_, ?_⟩ <;> rw [← h.1])

def stC8 : State := { emptyState with electionOpen := true, queuedScore := some (5, 5, 5) }

/-- Witness for C8 at a concrete input: an equal score is not strictly
better, so the submission is rejected as weak with the state unchanged. -/
theorem check_and_replace_solution_spec_witness :
    check_and_replace_solution ⟨1, 3, 2⟩ (fun _ _ => none) (fun _ => [])
      (fun _ _ => ([], 0)) (fun _ => (0, 0, 0)) stC8 [] .Signed (5, 5, 5)
      = (stC8, some .PhragmenWeakSubmission) :=
  (check_and_replace_solution_spec ⟨1, 3, 2⟩ (fun _ _ => none) (fun _ => [])
    (fun _ _ => ([], 0)) (fun _ => (0, 0, 0)) stC8 [] .Signed (5, 5, 5)).1
    (5, 5, 5) rfl rfl (by decide)

end Staking
